import Mathlib

/-!
Verification of the terminal local-link detector
(`TerminalLocalLinkDetector` and the path / line-and-column regular
expression clauses it scans with).

The TypeScript source is embedded shallowly:

* The regular expressions built by string concatenation in the source are
  embedded as `Regex` abstract syntax trees.  JavaScript regex semantics
  (leftmost match, ordered alternation, greedy quantifiers, capture groups
  numbered by the position of their opening parenthesis) are given by the
  continuation-passing backtracking matcher `mrun`.
* `detect` is embedded with its external collaborators as parameters:
  the reconstructed line text (`getXtermLineContent`'s result) is an input,
  the path resolver is a function argument returning `Except` (it is
  `async` and may reject), and the buffer-coordinate converter is modelled
  by recording the 1-based column range handed to it
  (`convertLinkRangeToBuffer` is an external contract that is consumed,
  not implemented, by this code).
* The process-wide mutable `cachedValidatedLinks` map and the list of
  resolver invocations are threaded explicitly through the state.
* The `window.setTimeout` / `window.clearTimeout` cache-clear timer logic
  is modelled separately by `armCacheClear` over a small timer-system
  state.
-/

/-! ## JavaScript character predicates -/

/-- The characters matched by the JavaScript regex class `\s`
(ECMAScript WhiteSpace and LineTerminator). -/
def jsWhitespaceChars : List Char :=
  ['\t', '\n', '\x0b', '\x0c', '\r', ' ', '\u00A0', '\u1680',
   '\u2000', '\u2001', '\u2002', '\u2003', '\u2004', '\u2005', '\u2006',
   '\u2007', '\u2008', '\u2009', '\u200A', '\u2028', '\u2029', '\u202F',
   '\u205F', '\u3000', '\uFEFF']

/-- JavaScript `\s`. -/
def jsIsSpace (c : Char) : Bool := jsWhitespaceChars.contains c

/-- JavaScript `\d`, i.e. `[0-9]`. -/
def jsIsDigit (c : Char) : Bool := c.isDigit

/-! ## Regex abstract syntax

`Regex` is the abstract syntax of the fragment of JavaScript regular
expressions used by the detector: single-character classes (which also
cover literal characters), concatenation, ordered alternation, greedy
star and capturing groups.  `e?` is encoded as `alt e eps` (greedy: the
present branch is preferred) and `e+` as `cat e (star e)`, which is how
ECMAScript defines them.  Non-capturing groups `(?:...)` need no node. -/

inductive Regex : Type where
  | eps : Regex
  | cls : (Char → Bool) → Regex
  | cat : Regex → Regex → Regex
  | alt : Regex → Regex → Regex
  | star : Regex → Regex
  | plus : Regex → Regex
  | group : Regex → Regex

/-- A literal character. -/
def rch (c : Char) : Regex := .cls (fun d => d = c)

/-- A literal string (sequence of literal characters). -/
def rstr (s : String) : Regex := s.data.foldr (fun c r => .cat (rch c) r) .eps

/-- Greedy `e?`. -/
def ropt (r : Regex) : Regex := .alt r .eps

/-- Greedy `e+`.  This is a separate node (rather than the encoding
`cat e (star e)`) because in JavaScript all iterations of `e+` reuse the
same capture-group numbers. -/
def rplus (r : Regex) : Regex := .plus r

/-- Number of capturing groups (parenthesised sub-expressions), used for
JavaScript's group numbering by position of the opening parenthesis. -/
def countGroups : Regex → Nat
  | .eps => 0
  | .cls _ => 0
  | .cat a b => countGroups a + countGroups b
  | .alt a b => countGroups a + countGroups b
  | .star a => countGroups a
  | .plus a => countGroups a
  | .group a => 1 + countGroups a

/-- Syntactic size, used only to pick a sufficient fuel value. -/
def rsize : Regex → Nat
  | .eps => 1
  | .cls _ => 1
  | .cat a b => rsize a + rsize b + 1
  | .alt a b => rsize a + rsize b + 1
  | .star a => rsize a + 1
  | .plus a => rsize a + 2
  | .group a => rsize a + 1

/-- `nonNullable r = true` means no match of `r` can be empty. -/
def nonNullable : Regex → Bool
  | .eps => false
  | .cls _ => true
  | .cat a b => nonNullable a || nonNullable b
  | .alt a b => nonNullable a && nonNullable b
  | .star _ => false
  | .plus a => nonNullable a
  | .group a => nonNullable a

/-! ## The backtracking matcher

`mrun r fuel base s caps k` explores the ways `r` can match a prefix of
`s`, in JavaScript order (ordered alternation, greedy quantifiers), and
calls the continuation `k` with the remaining input and updated capture
list for each candidate way until `k` succeeds.  `base` is the group
number of the first capturing group inside `r`.  Captures are an
association list mapping group numbers to the most recently captured
text; a group that never participated is simply absent.  `fuel` bounds
the number of star unfoldings; as in ECMAScript, a star iteration that
consumes nothing is rejected, so matching only needs fuel proportional
to the input length. -/

abbrev Caps := List (Nat × List Char)

/-- Lookup of a capture group's latest value (JS `match[i]`). -/
def capsGet (caps : Caps) (i : Nat) : Option (List Char) :=
  (caps.find? (fun p => p.1 = i)).map (fun p => p.2)

def mrun : Nat → Regex → Nat → List Char → Caps →
    (List Char → Caps → Option (List Char × Caps)) → Option (List Char × Caps)
  | 0, _, _, _, _, _ => none
  | fuel + 1, r, base, s, caps, k =>
    match r with
    | .eps => k s caps
    | .cls p =>
      match s with
      | [] => none
      | c :: t => if p c then k t caps else none
    | .cat a b =>
      mrun fuel a base s caps
        (fun t caps1 => mrun fuel b (base + countGroups a) t caps1 k)
    | .alt a b =>
      (mrun fuel a base s caps k).orElse
        (fun _ => mrun fuel b (base + countGroups a) s caps k)
    | .star a =>
      (mrun fuel a base s caps (fun t caps1 =>
        if t.length = s.length then none
        else mrun fuel (.star a) base t caps1 k)).orElse
        (fun _ => k s caps)
    | .plus a =>
      mrun fuel a base s caps (fun t caps1 => mrun fuel (.star a) base t caps1 k)
    | .group a =>
      mrun fuel a (base + 1) s caps (fun t caps1 =>
        k t ((base, s.take (s.length - t.length)) :: caps1))

/-- A fuel value sufficient for matching `r` against `n` characters: any
chain of nested `mrun` calls descends syntactically at most `rsize r`
levels between quantifier iterations, and every quantifier iteration
consumes at least one character. -/
def mfuel (r : Regex) (n : Nat) : Nat := (n + 1) * (rsize r + 2)

/-- Try to match `r` at string position `pos` of `text`; on success return
the length of `match[0]` together with the captures. -/
def matchAt (r : Regex) (text : List Char) (pos : Nat) : Option (Nat × Caps) :=
  match mrun (mfuel r (text.length - pos)) r 1 (text.drop pos) []
      (fun t caps => some (t, caps)) with
  | some (t, caps) => some ((text.length - pos) - t.length, caps)
  | none => none

/-- The search loop of `exec`: try positions `start`, `start + 1`, ... -/
def execFromAux (r : Regex) (text : List Char) : Nat → Nat → Option (Nat × Nat × Caps)
  | 0, _ => none
  | fuel + 1, start =>
    if start > text.length then none
    else
      match matchAt r text start with
      | some (len, caps) => some (start, len, caps)
      | none => execFromAux r text fuel (start + 1)

/-- JavaScript `RegExp.prototype.exec` on a regex with the `g` flag:
scan for the leftmost position `≥ start` where the pattern matches.
Returns `(position, length of match[0], captures)`. -/
def execFrom (r : Regex) (text : List Char) (start : Nat) :
    Option (Nat × Nat × Caps) :=
  execFromAux r text (text.length + 1) start

/-- The search loop of `indexOf`: try positions `j`, `j + 1`, ... -/
def jsIndexOfAux (text pat : List Char) : Nat → Nat → Option Nat
  | 0, _ => none
  | fuel + 1, j =>
    if j > text.length then none
    else if pat.isPrefixOf (text.drop j) then some j
    else jsIndexOfAux text pat fuel (j + 1)

/-- JavaScript `String.prototype.indexOf(pat, start)`; a negative start
index is clamped to `0`, and `none` stands for the JS result `-1`. -/
def jsIndexOf (text pat : List Char) (start : Int) : Option Nat :=
  jsIndexOfAux text pat (text.length + 1) start.toNat

/-- Concatenation of a list of regexes. -/
def rcat (l : List Regex) : Regex := l.foldr .cat .eps

/-! ## The path and line/column clauses

These are transcriptions of the regular-expression strings built at the
top of the source file.  Group numbering in the engine follows the
position of each `group` node in a left-to-right traversal, exactly as
JavaScript numbers capturing parentheses. -/

/-- Operating system enum (`vs/base/common/platform`). -/
inductive OperatingSystem : Type where
  | Windows : OperatingSystem
  | Macintosh : OperatingSystem
  | Linux : OperatingSystem
deriving DecidableEq

/-- Source: `const pathPrefix = '(\\.\\.?|\\~)'`, i.e. `(\.\.?|\~)`. -/
def pathPrefixAst : Regex :=
  .group (.alt (.cat (rch '.') (ropt (rch '.'))) (rch '~'))

/-- Source: `const excludedPathCharactersClause = '[^\\0\\s!`&*()\\[\\]\'":;\\\\]'`,
the character class `[^\0\s!`&*()\[\]'":;\\]`: everything except NUL,
whitespace and the listed shell punctuation (including backslash). -/
def unixBodyChar (c : Char) : Bool :=
  !(c = '\x00' || jsIsSpace c || "!`&*()[]'\":;\\".toList.contains c)

/-- Source: `unixLocalLinkClause`, the string
`((` pathPrefix `|(` excluded `)+)?(\/(` excluded `)+)+)`.
Groups 1-6 in a combined unix regex. -/
def unixLocalLinkClauseAst : Regex :=
  .group (.cat
    (ropt (.group (.alt pathPrefixAst (rplus (.group (.cls unixBodyChar))))))
    (rplus (.group (.cat (rch '/') (rplus (.group (.cls unixBodyChar)))))))

/-- Source: `winDrivePrefix = '(?:\\\\\\\\\\?\\\\)?[a-zA-Z]:'`, i.e. the
regex `(?:\\\?\\)?[a-zA-Z]:`: an optional literal `\\?\` UNC escape, a
letter and a colon.  The `(?:...)` group is non-capturing. -/
def winDrivePrefixAst : Regex :=
  .cat (ropt (rcat [rch '\\', rch '\\', rch '?', rch '\\']))
    (.cat (.cls Char.isAlpha) (rch ':'))

/-- Source: `winPathPrefix = '(' + winDrivePrefix + '|\\.\\.?|\\~)'`. -/
def winPathPrefixAst : Regex :=
  .group (.alt winDrivePrefixAst
    (.alt (.cat (rch '.') (ropt (rch '.'))) (rch '~')))

/-- Source: `winPathSeparatorClause = '(\\\\|\\/)'`, i.e. `(\\|\/)`. -/
def winPathSeparatorClauseAst : Regex :=
  .group (.alt (rch '\\') (rch '/'))

/-- Source: `winExcludedPathCharactersClause`, the class
`[^\0<>\?\|\/\s!`&*()\[\]'":;]` (note: backslash is not excluded). -/
def winBodyChar (c : Char) : Bool :=
  !(c = '\x00' || jsIsSpace c || "<>?|/!`&*()[]'\":;".toList.contains c)

/-- Source: `winLocalLinkClause`.  Groups 1-7 in a combined windows regex. -/
def winLocalLinkClauseAst : Regex :=
  .group (.cat
    (ropt (.group (.alt winPathPrefixAst (rplus (.group (.cls winBodyChar))))))
    (rplus (.group (.cat winPathSeparatorClauseAst (rplus (.group (.cls winBodyChar)))))))

/-- The class `[  ]` that the source substitutes for every literal
space in `lineAndColumnClause` via `.replace(/ /g, ...)`. -/
def spaceCls : Regex := .cls (fun c => c = ' ' || c = ' ')

/-- The capturing group `(\d+)` that appears in every suffix form. -/
def grpDigits : Regex := .group (rplus (.cls jsIsDigit))

/-- The capturing group `(\S*)`. -/
def grpNotSpaceStar : Regex := .group (.star (.cls (fun c => !jsIsSpace c)))

/-- The class `[\'"]`. -/
def quoteCls : Regex := .cls (fun c => c = '\'' || c = '"')

/-- Suffix form 1: `((\S*)[\'"], line ((\d+)( column (\d+))?))`
("(file path)", line 45, see #40468), spaces replaced by `[  ]`. -/
def lineAndColumnClause1 : Regex :=
  .group (rcat [grpNotSpaceStar, quoteCls, rch ',', spaceCls, rstr "line", spaceCls,
    .group (rcat [grpDigits,
      ropt (.group (rcat [spaceCls, rstr "column", spaceCls, grpDigits]))])])

/-- Suffix form 2: `((\S*)[\'"],((\d+)(:(\d+))?))` ("(file path)",45, see #78205). -/
def lineAndColumnClause2 : Regex :=
  .group (rcat [grpNotSpaceStar, quoteCls, rch ',',
    .group (rcat [grpDigits, ropt (.group (.cat (rch ':') grpDigits))])])

/-- Suffix form 3: `((\S*) on line ((\d+)(, column (\d+))?))`
((file path) on line 8, column 13), spaces replaced by `[  ]`. -/
def lineAndColumnClause3 : Regex :=
  .group (rcat [grpNotSpaceStar, spaceCls, rstr "on", spaceCls, rstr "line", spaceCls,
    .group (rcat [grpDigits,
      ropt (.group (rcat [rch ',', spaceCls, rstr "column", spaceCls, grpDigits]))])])

/-- Suffix form 4: `((\S*):line ((\d+)(, column (\d+))?))`
((file path):line 8, column 13), spaces replaced by `[  ]`. -/
def lineAndColumnClause4 : Regex :=
  .group (rcat [grpNotSpaceStar, rch ':', rstr "line", spaceCls,
    .group (rcat [grpDigits,
      ropt (.group (rcat [rch ',', spaceCls, rstr "column", spaceCls, grpDigits]))])])

/-- Suffix form 5: `(([^\s\(\)]*)(\s?[\(\[](\d+)(,\s?(\d+))?)[\)\]])`
((file path)(45), (file path) (45,18), also with square brackets). -/
def lineAndColumnClause5 : Regex :=
  .group (rcat [
    .group (.star (.cls (fun c => !(jsIsSpace c || c = '(' || c = ')')))),
    .group (rcat [ropt (.cls jsIsSpace), .cls (fun c => c = '(' || c = '['), grpDigits,
      ropt (.group (rcat [rch ',', ropt (.cls jsIsSpace), grpDigits]))]),
    .cls (fun c => c = ')' || c = ']')])

/-- Suffix form 6: `(([^:\s\(\)<>\'\"\[\]]*)(:(\d+))?(:(\d+))?)`
((file path):336, (file path):336:9) -- the final bare fallback. -/
def lineAndColumnClause6 : Regex :=
  .group (rcat [
    .group (.star (.cls (fun c =>
      !(c = ':' || jsIsSpace c || "()<>'\"[]".toList.contains c)))),
    ropt (.group (.cat (rch ':') grpDigits)),
    ropt (.group (.cat (rch ':') grpDigits))])

/-- The six alternatives of `lineAndColumnClause`, in source order. -/
def lineAndColumnClauseList : List Regex :=
  [lineAndColumnClause1, lineAndColumnClause2, lineAndColumnClause3,
   lineAndColumnClause4, lineAndColumnClause5, lineAndColumnClause6]

/-- Source: `lineAndColumnClause = [...].join('|')` -- the ordered
alternation of the six suffix forms. -/
def lineAndColumnClauseAst : Regex :=
  .alt lineAndColumnClause1 (.alt lineAndColumnClause2 (.alt lineAndColumnClause3
    (.alt lineAndColumnClause4 (.alt lineAndColumnClause5 lineAndColumnClause6))))

/-- Source: `export const winLineAndColumnMatchIndex = 12`. -/
def winLineAndColumnMatchIndex : Nat := 12

/-- Source: `export const unixLineAndColumnMatchIndex = 11`. -/
def unixLineAndColumnMatchIndex : Nat := 11

/-- Source: `export const lineAndColumnClauseGroupCount = 6`. -/
def lineAndColumnClauseGroupCount : Nat := 6

/-- Source: the `_localLinkRegex` getter --
`new RegExp(baseLocalLinkClause + '(' + lineAndColumnClause + ')', 'g')`
where the base clause is the windows one iff `_os === OperatingSystem.Windows`. -/
def localLinkRegexAst (os : OperatingSystem) : Regex :=
  .cat (if os = OperatingSystem.Windows then winLocalLinkClauseAst else unixLocalLinkClauseAst)
    (.group lineAndColumnClauseAst)

/-! ## The scan loop of `detect` (lines 90-124 of the source)

The `while ((match = rex.exec(text)) !== null)` loop recovers each match
position with `text.indexOf(link, stringIndex + 1)` (the engine-reported
index is deliberately not trusted), sets `rex.lastIndex` to the recovered
index plus the match length, and then applies the git-diff prefix
correction to the link text and its recovered index.  `ScanItem` keeps
the ghost fields `pos`, `rawLen`, `siRaw` (the engine-reported position,
the raw match length, and the recovered index before diff correction)
next to the emitted pair so that properties of the loop can be stated;
`scanMatches` projects them away. -/

/-- Source lines 114-124: strip a leading `a/` or `b/` from a match on a
git-diff line, shifting the recovered string index by two. -/
def diffCorrect (text link : List Char) (si : Nat) : List Char × Nat :=
  if ((("--- a/".data.isPrefixOf text || "+++ b/".data.isPrefixOf text) && si = 4)
      || ("diff --git".data.isPrefixOf text
          && ("a/".data.isPrefixOf link || "b/".data.isPrefixOf link)))
  then (link.drop 2, si + 2)
  else (link, si)

/-- One emitted match of the scan loop, with ghost fields recording the
engine-reported position (`pos`), the raw `match[0]` length (`rawLen`)
and the `indexOf`-recovered index before diff correction (`siRaw`). -/
structure ScanItem where
  text : String
  si : Nat
  pos : Nat
  rawLen : Nat
  siRaw : Nat
deriving DecidableEq, Repr

def scanLoopI (re : Regex) (text : List Char) :
    Nat → Nat → Int → List ScanItem
  | 0, _, _ => []
  | fuel + 1, lastIndex, stringIndex =>
    match execFrom re text lastIndex with
    | none => []
    | some (pos, len, _) =>
      -- `let link = match[0]`
      let link := (text.drop pos).take len
      if len = 0 then []          -- `if (!link) break`
      else
        match jsIndexOf text link (stringIndex + 1) with
        | none => []              -- `if (stringIndex < 0) break`
        | some si =>
          -- `rex.lastIndex = stringIndex + link.length` (before correction)
          let lastIndex1 := si + link.length
          let (link1, si1) := diffCorrect text link si
          ⟨String.mk link1, si1, pos, len, si⟩ ::
            scanLoopI re text fuel lastIndex1 (Int.ofNat si1)

/-- Instrumented scan of a whole line: `stringIndex` starts at `-1` and
`rex.lastIndex` at `0`. -/
def scanItems (re : Regex) (text : String) : List ScanItem :=
  scanLoopI re text.data (text.data.length + 2) 0 (-1)

/-- The `(link text, string index)` pairs the `detect` loop processes. -/
def scanMatches (re : Regex) (text : String) : List (String × Nat) :=
  (scanItems re text).map (fun e => (e.text, e.si))

/-! ## The detector (`TerminalLocalLinkDetector`)

State that in the source is ambient -- the process-wide
`cachedValidatedLinks` map and the resolver promise -- is passed and
returned explicitly.  The association `LinkCache` maps a raw matched link
text to `some resolved` (validated), `none` inside the outer `some`
standing for the JS `null` NOT_FOUND sentinel (`withUndefinedAsNull` of a
failed validation); an absent key is a cache miss.  All resolver
invocations are collected in call order.  A rejected resolver promise is
an `Except.error`, which aborts the pass. -/

/-- Result of `_resolvePath`: `{ uri, link, isDirectory }`. -/
structure ResolvedLink (α : Type) where
  uri : α
  link : String
  isDirectory : Bool
deriving DecidableEq, Repr

/-- Link type enum (`TerminalLinkType`). -/
inductive TerminalLinkType : Type where
  | LocalFile : TerminalLinkType
  | LocalFolderInWorkspace : TerminalLinkType
  | LocalFolderOutsideWorkspace : TerminalLinkType
deriving DecidableEq, Repr

/-- The 1-based column range handed to the external
`convertLinkRangeToBuffer` (with `startLineNumber = endLineNumber = 1`);
the conversion itself belongs to an external collaborator, so the link
record keeps the range passed to it. -/
structure LinkRange where
  startColumn : Nat
  endColumn : Nat
deriving DecidableEq, Repr

/-- `ITerminalSimpleLink` as produced by `detect`. -/
structure SimpleLink (α : Type) where
  text : String
  uri : α
  bufferRange : LinkRange
  type : TerminalLinkType
deriving DecidableEq, Repr

/-- The process-wide `cachedValidatedLinks : Map<string, R | null>`. -/
abbrev LinkCache (α : Type) := List (String × Option (ResolvedLink α))

def cacheGet (cache : LinkCache α) (key : String) :
    Option (Option (ResolvedLink α)) :=
  (cache.find? (fun p => p.1 = key)).map (fun p => p.2)

def cacheSet (cache : LinkCache α) (key : String) (v : Option (ResolvedLink α)) :
    LinkCache α :=
  (key, v) :: cache.filter (fun p => ¬(p.1 = key))

/-- The constructor dependencies and options of a detector instance.
`resolvePath` and the URI-identity capability are the injected external
collaborators. -/
structure DetectorConfig (α ε : Type) where
  os : OperatingSystem
  enableCaching : Bool
  folders : List α
  isEqualOrParent : α → α → Bool
  resolvePath : String → Except ε (Option (ResolvedLink α))

/-- Source `Constants.MaxLineLength`. -/
def MaxLineLength : Nat := 2000

/-- Source lines 144-147: the candidate list for one matched link text --
the text itself, plus, when it begins with `../` or `..\` repetitions
(`/^(\.\.[\/\\])+/`), the text with that whole leading run removed
(`link.replace(/^(\.\.[\/\\])+/, '')`). -/
def stripLeadingParentSegments : List Char → List Char
  | '.' :: '.' :: '/' :: rest => stripLeadingParentSegments rest
  | '.' :: '.' :: '\\' :: rest => stripLeadingParentSegments rest
  | s => s

/-- Whether `/^(\.\.[\/\\])+/` matches, i.e. the text starts with at
least one `../` or `..\` segment. -/
def hasLeadingParentSegment (s : List Char) : Bool :=
  "../".data.isPrefixOf s || "..\\".data.isPrefixOf s

def linkCandidates (link : String) : List String :=
  if hasLeadingParentSegment link.data
  then [link, String.mk (stripLeadingParentSegments link.data)]
  else [link]

/-- Source `_validateLinkCandidates`: try `_resolvePath` on each candidate
in order, returning the first success; also returns the list of resolver
invocations actually made.  A rejected promise propagates. -/
def validateLinkCandidates (resolve : String → Except ε (Option (ResolvedLink α))) :
    List String → Except ε (Option (ResolvedLink α)) × List String
  | [] => (.ok none, [])
  | c :: cs =>
    match resolve c with
    | .error e => (.error e, [c])
    | .ok (some r) => (.ok (some r), [c])
    | .ok none =>
      let (res, calls) := validateLinkCandidates resolve cs
      (res, c :: calls)

/-- Source `_isDirectoryInsideWorkspace`: true iff the uri is equal to or
under some workspace folder, via the injected `isEqualOrParent`. -/
def isDirectoryInsideWorkspace (cfg : DetectorConfig α ε) (uri : α) : Bool :=
  cfg.folders.any (fun f => cfg.isEqualOrParent uri f)

/-- Source lines 126-185: the body of the `while` loop after the scan
bookkeeping, for one corrected match `(link, stringIndex)`.  Returns the
updated cache, the resolver calls made, and either the link to append,
`none` (no link for this match) or a propagated resolver rejection.

Note the faithful modelling of the source's variable shadowing: on a
cache miss the validation result is bound to an inner `const linkStat`
(line 148) that shadows the outer `let linkStat` (line 135), so the
`if (linkStat)` test at line 156 still sees the outer value and a link is
only ever appended from a cache hit. -/
def processMatch (cfg : DetectorConfig α ε) (cache : LinkCache α)
    (m : String × Nat) :
    LinkCache α × List String × Except ε (Option (SimpleLink α)) :=
  let link := m.1
  let si := m.2
  let bufferRange : LinkRange := ⟨si + 1, si + link.length + 1⟩
  let linkStat := cacheGet cache link
  match linkStat with
  | some none => (cache, [], .ok none)     -- cached as not existing: `continue`
  | some (some r) =>
    -- cache hit: `if (linkStat)` sees the resolved link
    let ty : TerminalLinkType :=
      if r.isDirectory then
        if isDirectoryInsideWorkspace cfg r.uri then .LocalFolderInWorkspace
        else .LocalFolderOutsideWorkspace
      else .LocalFile
    (cache, [], .ok (some ⟨r.link, r.uri, bufferRange, ty⟩))
  | none =>
    -- cache miss: validate the candidates; the result only reaches the
    -- cache (inner `const linkStat`), never the `if (linkStat)` test
    match validateLinkCandidates cfg.resolvePath (linkCandidates link) with
    | (.error e, calls) => (cache, calls, .error e)
    | (.ok res, calls) =>
      ((if cfg.enableCaching then cacheSet cache link res else cache),
       calls, .ok none)

/-- The loop of `detect` over the scanned matches, accumulating `links`. -/
def detectLoop (cfg : DetectorConfig α ε) :
    LinkCache α → List (String × Nat) → List (SimpleLink α) →
    LinkCache α × List String × Except ε (List (SimpleLink α))
  | cache, [], acc => (cache, [], .ok acc)
  | cache, m :: ms, acc =>
    match processMatch cfg cache m with
    | (cache1, calls, .error e) => (cache1, calls, .error e)
    | (cache1, calls, .ok none) =>
      let (cache2, calls2, res) := detectLoop cfg cache1 ms acc
      (cache2, calls ++ calls2, res)
    | (cache1, calls, .ok (some l)) =>
      let (cache2, calls2, res) := detectLoop cfg cache1 ms (acc ++ [l])
      (cache2, calls ++ calls2, res)

/-- Source lines 83-190 of `detect` (the part after the cache-timer
reset): `text` is the reconstructed wrapped line
(`getXtermLineContent`'s result).  An empty or over-long line yields no
links; otherwise the scan runs and each match is processed in order. -/
def detect (cfg : DetectorConfig α ε) (cache : LinkCache α) (text : String) :
    LinkCache α × List String × Except ε (List (SimpleLink α)) :=
  if text = "" ∨ text.length > MaxLineLength then (cache, [], .ok [])
  else detectLoop cfg cache (scanMatches (localLinkRegexAst cfg.os) text) []

/-! ## The cache-clear timer (lines 60, 75-81)

`window.setTimeout` / `window.clearTimeout` are modelled by a timer
system holding the ids of the currently armed timers; `setTimeout`
returns a fresh positive id.  `_cacheTilTimeout` is a private
*instance* field, initially `0` (falsy). -/

/-- The browser timer system: armed timer ids and the next fresh id. -/
structure TimerSys where
  nextId : Nat
  armed : List Nat
deriving DecidableEq, Repr

/-- A fresh timer system; ids start at 1 so that 0 is never a timer id. -/
def TimerSys.fresh : TimerSys := ⟨1, []⟩

def clearTimeout (sys : TimerSys) (id : Nat) : TimerSys :=
  ⟨sys.nextId, sys.armed.erase id⟩

def setTimeout (sys : TimerSys) : Nat × TimerSys :=
  (sys.nextId, ⟨sys.nextId + 1, sys.armed ++ [sys.nextId]⟩)

/-- The per-instance `_cacheTilTimeout` field. -/
structure DetectorTimerState where
  cacheTilTimeout : Nat
deriving DecidableEq, Repr

/-- A fresh detector instance's timer field (`private _cacheTilTimeout = 0`). -/
def DetectorTimerState.fresh : DetectorTimerState := ⟨0⟩

/-- Source lines 75-81: at the start of every `detect` call, when caching
is enabled, clear this instance's pending cache-clear timer (if its id is
truthy) and arm a new 10-second one, remembering its id in the instance
field. -/
def armCacheClear (enableCaching : Bool) (d : DetectorTimerState) (sys : TimerSys) :
    DetectorTimerState × TimerSys :=
  if enableCaching then
    let sys1 := if d.cacheTilTimeout ≠ 0 then clearTimeout sys d.cacheTilTimeout else sys
    let (id, sys2) := setTimeout sys1
    (⟨id⟩, sys2)
  else (d, sys)

/-! ## Matcher metatheory

`MatchesN n r u` is a matching derivation of depth at most `n`: `r`
matches exactly the characters `u`.  Star derivations are split into
iterations that each consume at least one character, mirroring the
ECMAScript rule (enforced by `mrun`) that an iteration matching the
empty string ends the loop.  The depth index ties derivations to the
fuel needed by `mrun`. -/

inductive MatchesN : Nat → Regex → List Char → Prop where
  | eps : MatchesN (n + 1) .eps []
  | cls {p : Char → Bool} {c : Char} (h : p c = true) : MatchesN (n + 1) (.cls p) [c]
  | cat (ha : MatchesN n a u) (hb : MatchesN n b v) : MatchesN (n + 1) (.cat a b) (u ++ v)
  | altL (ha : MatchesN n a u) : MatchesN (n + 1) (.alt a b) u
  | altR (hb : MatchesN n b u) : MatchesN (n + 1) (.alt a b) u
  | group (ha : MatchesN n a u) : MatchesN (n + 1) (.group a) u
  | starNil : MatchesN (n + 1) (.star a) []
  | starCons (ha : MatchesN n a u) (hne : u ≠ []) (hs : MatchesN n (.star a) v) :
      MatchesN (n + 1) (.star a) (u ++ v)
  | plus (ha : MatchesN n a u) (hs : MatchesN n (.star a) v) :
      MatchesN (n + 1) (.plus a) (u ++ v)

theorem MatchesN.mono (h : MatchesN n r u) (hnm : n ≤ m) : MatchesN m r u := by
  induction h generalizing m with
  | eps =>
    cases m with
    | zero => omega
    | succ m => exact .eps
  | cls hp =>
    cases m with
    | zero => omega
    | succ m => exact .cls hp
  | cat ha hb iha ihb =>
    cases m with
    | zero => omega
    | succ m => exact .cat (iha (by omega)) (ihb (by omega))
  | altL ha iha =>
    cases m with
    | zero => omega
    | succ m => exact .altL (iha (by omega))
  | altR hb ihb =>
    cases m with
    | zero => omega
    | succ m => exact .altR (ihb (by omega))
  | group ha iha =>
    cases m with
    | zero => omega
    | succ m => exact .group (iha (by omega))
  | starNil =>
    cases m with
    | zero => omega
    | succ m => exact .starNil
  | starCons ha hne hs iha ihs =>
    cases m with
    | zero => omega
    | succ m => exact .starCons (iha (by omega)) hne (ihs (by omega))
  | plus ha hs iha ihs =>
    cases m with
    | zero => omega
    | succ m => exact .plus (iha (by omega)) (ihs (by omega))

/-- An `Option.orElse` is `isSome` iff one of its sides is. -/
theorem orElse_isSome {x : Option α} {f : Unit → Option α} :
    (x.orElse f).isSome = (x.isSome || (f ()).isSome) := by
  cases x <;> simp [Option.orElse]

/-- Evaluation of `Option.orElse` on `none`. -/
theorem orElse_none_eval {f : Unit → Option α} : Option.none.orElse f = f () := rfl

/-- Evaluation of `Option.orElse` on `some`. -/
theorem orElse_some_eval {a : α} {f : Unit → Option α} :
    (some a).orElse f = some a := rfl

/-- Completeness of the backtracking matcher: a derivation of depth `n`
guarantees success with any fuel `≥ n`, for any continuation that
succeeds on the rest of the input. -/
theorem mrun_complete (h : MatchesN n r u) :
    ∀ fuel base t caps (k : List Char → Caps → Option (List Char × Caps)),
      n ≤ fuel → (∀ caps1, (k t caps1).isSome) →
      (mrun fuel r base (u ++ t) caps k).isSome := by
  induction h with
  | eps =>
    intro fuel base t caps k hn hk
    cases fuel with
    | zero => omega
    | succ fuel => simpa [mrun] using hk caps
  | cls hp =>
    intro fuel base t caps k hn hk
    cases fuel with
    | zero => omega
    | succ fuel => simpa [mrun, hp] using hk caps
  | cat ha hb iha ihb =>
    intro fuel base t caps k hn hk
    cases fuel with
    | zero => omega
    | succ fuel =>
      simp only [mrun, List.append_assoc]
      exact iha fuel _ _ caps _ (by omega) (fun caps1 => ihb fuel _ t caps1 k (by omega) hk)
  | altL ha iha =>
    intro fuel base t caps k hn hk
    cases fuel with
    | zero => omega
    | succ fuel =>
      simp only [mrun, orElse_isSome, Bool.or_eq_true]
      exact Or.inl (iha fuel base t caps k (by omega) hk)
  | altR hb ihb =>
    intro fuel base t caps k hn hk
    cases fuel with
    | zero => omega
    | succ fuel =>
      simp only [mrun, orElse_isSome, Bool.or_eq_true]
      exact Or.inr (ihb fuel _ t caps k (by omega) hk)
  | group ha iha =>
    intro fuel base t caps k hn hk
    cases fuel with
    | zero => omega
    | succ fuel =>
      simp only [mrun]
      exact iha fuel (base + 1) t caps _ (by omega) (fun caps1 => hk _)
  | starNil =>
    intro fuel base t caps k hn hk
    cases fuel with
    | zero => omega
    | succ fuel =>
      simp only [mrun, orElse_isSome, Bool.or_eq_true]
      exact Or.inr (hk caps)
  | @starCons n a u v ha hne hs iha ihs =>
    intro fuel base t caps k hn hk
    cases fuel with
    | zero => omega
    | succ fuel =>
      simp only [mrun, orElse_isSome, Bool.or_eq_true, List.append_assoc]
      refine Or.inl (iha fuel base _ caps _ (by omega) (fun caps1 => ?_))
      have hu : u.length ≠ 0 := fun hc => hne (List.length_eq_zero.mp hc)
      simp only [List.length_append]
      rw [if_neg (by omega)]
      exact ihs fuel base t caps1 k (by omega) hk
  | plus ha hs iha ihs =>
    intro fuel base t caps k hn hk
    cases fuel with
    | zero => omega
    | succ fuel =>
      simp only [mrun, List.append_assoc]
      exact iha fuel base _ caps _ (by omega)
        (fun caps1 => ihs fuel base t caps1 k (by omega) hk)

/-- Soundness-style consumption bound: a successful `mrun` returns the
value of a continuation call on a suffix of the input, consuming at
least one character when `r` cannot match the empty string. -/
theorem mrun_consume :
    ∀ fuel r base s caps (k : List Char → Caps → Option (List Char × Caps)),
      (mrun fuel r base s caps k).isSome →
      ∃ t caps1, k t caps1 = mrun fuel r base s caps k ∧ t.length ≤ s.length ∧
        (nonNullable r = true → t.length < s.length) := by
  intro fuel
  induction fuel with
  | zero =>
    intro r base s caps k h
    simp [mrun] at h
  | succ fuel ih =>
    intro r base s caps k h
    cases r with
    | eps =>
      exact ⟨s, caps, rfl, Nat.le_refl _, by simp [nonNullable]⟩
    | cls p =>
      cases s with
      | nil => simp [mrun] at h
      | cons c t =>
        by_cases hp : p c
        · refine ⟨t, caps, ?_, Nat.le_succ _, fun _ => Nat.lt_succ_self _⟩
          simp [mrun, hp]
        · simp [mrun, hp] at h
    | cat a b =>
      rw [mrun] at h ⊢
      obtain ⟨t1, c1, heq1, hle1, hlt1⟩ := ih a base s caps _ h
      have h2 : (mrun fuel b (base + countGroups a) t1 c1 k).isSome := by
        rw [heq1]; exact h
      obtain ⟨t2, c2, heq2, hle2, hlt2⟩ := ih b (base + countGroups a) t1 c1 k h2
      refine ⟨t2, c2, by rw [heq2, heq1], Nat.le_trans hle2 hle1, fun hnn => ?_⟩
      simp only [nonNullable, Bool.or_eq_true] at hnn
      rcases hnn with hnn | hnn
      · exact Nat.lt_of_le_of_lt hle2 (hlt1 hnn)
      · exact Nat.lt_of_lt_of_le (hlt2 hnn) hle1
    | alt a b =>
      rw [mrun] at h ⊢
      rcases ho : (mrun fuel a base s caps k) with _ | x
      · rw [ho, orElse_none_eval] at h
        rw [orElse_none_eval]
        obtain ⟨t1, c1, heq1, hle1, hlt1⟩ := ih b (base + countGroups a) s caps k h
        refine ⟨t1, c1, heq1, hle1, fun hnn => ?_⟩
        simp only [nonNullable, Bool.and_eq_true] at hnn
        exact hlt1 hnn.2
      · rw [orElse_some_eval]
        obtain ⟨t1, c1, heq1, hle1, hlt1⟩ := ih a base s caps k (by rw [ho]; rfl)
        refine ⟨t1, c1, ?_, hle1, fun hnn => ?_⟩
        · rw [heq1]; exact ho
        · simp only [nonNullable, Bool.and_eq_true] at hnn
          exact hlt1 hnn.1
    | star a =>
      rw [mrun] at h ⊢
      rcases ho : (mrun fuel a base s caps (fun t caps1 =>
          if t.length = s.length then none
          else mrun fuel (.star a) base t caps1 k)) with _ | x
      · rw [orElse_none_eval]
        exact ⟨s, caps, rfl, Nat.le_refl _, by simp [nonNullable]⟩
      · rw [orElse_some_eval]
        obtain ⟨t1, c1, heq1, hle1, -⟩ :=
          ih a base s caps (fun t caps1 =>
            if t.length = s.length then none
            else mrun fuel (.star a) base t caps1 k) (by rw [ho]; rfl)
        have h2 : (if t1.length = s.length then none
            else mrun fuel (.star a) base t1 c1 k) = some x := by
          have := heq1
          simp only [] at this
          rw [this, ho]
        by_cases hts : t1.length = s.length
        · rw [if_pos hts] at h2
          exact absurd h2 (by simp)
        · rw [if_neg hts] at h2
          obtain ⟨t2, c2, heq2, hle2, -⟩ :=
            ih (.star a) base t1 c1 k (by rw [h2]; rfl)
          exact ⟨t2, c2, by rw [heq2, h2], Nat.le_trans hle2 hle1,
            by simp [nonNullable]⟩
    | plus a =>
      rw [mrun] at h ⊢
      obtain ⟨t1, c1, heq1, hle1, hlt1⟩ := ih a base s caps _ h
      have h2 : (mrun fuel (.star a) base t1 c1 k).isSome := by
        rw [heq1]; exact h
      obtain ⟨t2, c2, heq2, hle2, _⟩ := ih (.star a) base t1 c1 k h2
      refine ⟨t2, c2, by rw [heq2, heq1], Nat.le_trans hle2 hle1, fun hnn => ?_⟩
      simp only [nonNullable] at hnn
      exact Nat.lt_of_le_of_lt hle2 (hlt1 hnn)
    | group a =>
      rw [mrun] at h ⊢
      obtain ⟨t1, c1, heq1, hle1, hlt1⟩ := ih a (base + 1) s caps _ h
      refine ⟨t1, (base, s.take (s.length - t1.length)) :: c1, by rw [heq1], hle1,
        fun hnn => ?_⟩
      simp only [nonNullable] at hnn
      exact hlt1 hnn

/-- `execFromAux` only reports positions at or after its start position. -/
theorem execFromAux_pos_ge (r : Regex) (text : List Char) :
    ∀ fuel start pos len caps, execFromAux r text fuel start = some (pos, len, caps) →
      start ≤ pos := by
  intro fuel
  induction fuel with
  | zero => intro start pos len caps h; simp [execFromAux] at h
  | succ fuel ih =>
    intro start pos len caps h
    rw [execFromAux] at h
    by_cases hgt : start > text.length
    · simp [hgt] at h
    · rw [if_neg hgt] at h
      rcases hm : matchAt r text start with _ | ⟨l2, c2⟩
      · simp only [hm] at h
        exact Nat.le_of_succ_le (ih (start + 1) pos len caps h)
      · simp only [hm] at h
        obtain ⟨h1, -, -⟩ := h
        omega

/-- `exec` only reports positions at or after `lastIndex`. -/
theorem execFrom_pos_ge (h : execFrom r text start = some (pos, len, caps)) :
    start ≤ pos :=
  execFromAux_pos_ge r text _ start pos len caps h

/-- If the pattern matches at the start position, `exec` reports it. -/
theorem execFrom_at_start (h : matchAt r text start = some (len, caps))
    (hs : start ≤ text.length) :
    execFrom r text start = some (start, len, caps) := by
  unfold execFrom
  rw [execFromAux, if_neg (by omega), h]

/-- `indexOf` from position 0 finds a prefix at position 0. -/
theorem jsIndexOf_zero_prefix (h : pat.isPrefixOf text = true) :
    jsIndexOf text pat 0 = some 0 := by
  unfold jsIndexOf
  rw [show ((0 : Int).toNat) = 0 from rfl, jsIndexOfAux, if_neg (by omega)]
  simp [h]

/-! ## The POSIX path language (spec side, for the grammar claim)

`IsUnixPath` follows the spec's description of the POSIX grammar --
`(prefix|body+)?(separator body+)+` with `prefix` one of `.`, `..`, `~`,
separator `/`, and `body` the unix path body characters -- so that the
scanner can be proved to find every string of this shape. -/

def IsUnixPathHead (h : List Char) : Prop :=
  h = [] ∨ h = ['.'] ∨ h = ['.', '.'] ∨ h = ['~'] ∨
    (h ≠ [] ∧ ∀ c ∈ h, unixBodyChar c = true)

def IsUnixPathSeg (seg : List Char) : Prop :=
  ∃ cs, seg = '/' :: cs ∧ cs ≠ [] ∧ ∀ c ∈ cs, unixBodyChar c = true

def IsUnixPath (s : List Char) : Prop :=
  ∃ h segs, IsUnixPathHead h ∧ segs ≠ [] ∧ (∀ seg ∈ segs, IsUnixPathSeg seg) ∧
    s = h ++ segs.flatten

/-! Derivation constructions: every string of the path language has a
matching derivation for the transcribed unix clause, of depth linear in
its length. -/

/-- A run of class characters matches `(cls p)*` wrapped in a group. -/
theorem matchesN_star_cls {p : Char → Bool} :
    ∀ cs : List Char, (∀ c ∈ cs, p c = true) →
      MatchesN (cs.length + 3) (.star (.group (.cls p))) cs := by
  intro cs
  induction cs with
  | nil => intro _; exact .starNil
  | cons c rest ih =>
    intro hall
    have hc : MatchesN (rest.length + 3) (.group (.cls p)) [c] :=
      .group (.cls (hall c (by simp)))
    have hrest : MatchesN (rest.length + 3) (.star (.group (.cls p))) rest :=
      ih (fun d hd => hall d (by simp [hd]))
    exact (MatchesN.starCons hc (by simp) hrest).mono
      (by simp only [List.length_cons]; omega)

/-- A nonempty run of class characters matches `(cls p)+` (a group). -/
theorem matchesN_plus_cls {p : Char → Bool} (cs : List Char) (hne : cs ≠ [])
    (hall : ∀ c ∈ cs, p c = true) :
    MatchesN (cs.length + 3) (rplus (.group (.cls p))) cs := by
  cases cs with
  | nil => exact absurd rfl hne
  | cons c rest =>
    have hc : MatchesN (rest.length + 3) (.group (.cls p)) [c] :=
      .group (.cls (hall c (by simp)))
    have hrest : MatchesN (rest.length + 3) (.star (.group (.cls p))) rest :=
      matchesN_star_cls rest (fun d hd => hall d (by simp [hd]))
    exact (MatchesN.plus hc hrest).mono (by simp only [List.length_cons]; omega)

/-- One separator segment `/cs` matches `(\/(body)+)`. -/
theorem matchesN_seg (seg : List Char) (hseg : IsUnixPathSeg seg) :
    MatchesN (seg.length + 4)
      (.group (.cat (rch '/') (rplus (.group (.cls unixBodyChar))))) seg := by
  obtain ⟨cs, rfl, hne, hall⟩ := hseg
  have hsep : MatchesN (cs.length + 3) (rch '/') ['/'] := .cls (by simp [rch])
  have hbody : MatchesN (cs.length + 3) (rplus (.group (.cls unixBodyChar))) cs :=
    matchesN_plus_cls cs hne hall
  exact (MatchesN.group (MatchesN.cat hsep hbody)).mono
    (by simp only [List.length_cons]; omega)

/-- A list of separator segments matches `(\/(body)+)*`. -/
theorem matchesN_star_seg :
    ∀ segs : List (List Char), (∀ seg ∈ segs, IsUnixPathSeg seg) →
      MatchesN (segs.flatten.length + 5)
        (.star (.group (.cat (rch '/') (rplus (.group (.cls unixBodyChar))))))
        segs.flatten := by
  intro segs
  induction segs with
  | nil => intro _; exact .starNil
  | cons seg rest ih =>
    intro hall
    have hseg : IsUnixPathSeg seg := hall seg (by simp)
    have hs1 : 1 ≤ seg.length := by
      obtain ⟨cs, rfl, -, -⟩ := hseg
      simp
    have hne : seg ≠ [] := by
      obtain ⟨cs, rfl, -, -⟩ := hseg
      simp
    have h1 : MatchesN (seg.length + rest.flatten.length + 4)
        (.group (.cat (rch '/') (rplus (.group (.cls unixBodyChar))))) seg :=
      (matchesN_seg seg hseg).mono (by omega)
    have h2 : MatchesN (seg.length + rest.flatten.length + 4)
        (.star (.group (.cat (rch '/') (rplus (.group (.cls unixBodyChar))))))
        rest.flatten :=
      (ih (fun x hx => hall x (by simp [hx]))).mono (by omega)
    exact (MatchesN.starCons h1 hne h2).mono
      (by simp only [List.flatten_cons, List.length_append]; omega)

/-- A nonempty list of separator segments matches `(\/(body)+)+`. -/
theorem matchesN_plus_seg (segs : List (List Char)) (hne : segs ≠ [])
    (hall : ∀ seg ∈ segs, IsUnixPathSeg seg) :
    MatchesN (segs.flatten.length + 5)
      (rplus (.group (.cat (rch '/') (rplus (.group (.cls unixBodyChar))))))
      segs.flatten := by
  cases segs with
  | nil => exact absurd rfl hne
  | cons seg rest =>
    have hseg : IsUnixPathSeg seg := hall seg (by simp)
    have hs1 : 1 ≤ seg.length := by
      obtain ⟨cs, rfl, -, -⟩ := hseg
      simp
    have h1 : MatchesN (seg.length + rest.flatten.length + 4)
        (.group (.cat (rch '/') (rplus (.group (.cls unixBodyChar))))) seg :=
      (matchesN_seg seg hseg).mono (by omega)
    have h2 : MatchesN (seg.length + rest.flatten.length + 4)
        (.star (.group (.cat (rch '/') (rplus (.group (.cls unixBodyChar))))))
        rest.flatten :=
      (matchesN_star_seg rest (fun x hx => hall x (by simp [hx]))).mono (by omega)
    exact (MatchesN.plus h1 h2).mono
      (by simp only [List.flatten_cons, List.length_append]; omega)

/-- The head part matches the optional `(pathPrefix|(body)+)?`. -/
theorem matchesN_head (h : List Char) (hh : IsUnixPathHead h) :
    MatchesN (h.length + 8)
      (ropt (.group (.alt pathPrefixAst (rplus (.group (.cls unixBodyChar)))))) h := by
  rcases hh with rfl | rfl | rfl | rfl | ⟨hne, hall⟩
  · exact (MatchesN.altR .eps : MatchesN 2 _ ([] : List Char)).mono (by omega)
  · have hdot : MatchesN 3 (.cat (rch '.') (ropt (rch '.'))) (['.'] ++ []) :=
      .cat (.cls (by simp [rch])) (.altR .eps)
    have hpre : MatchesN 5 pathPrefixAst ['.'] := .group (.altL (hdot.mono (by omega)))
    exact (MatchesN.altL (.group (.altL hpre)) : MatchesN 8 _ _).mono (by omega)
  · have hdot : MatchesN 3 (.cat (rch '.') (ropt (rch '.'))) (['.'] ++ ['.']) :=
      .cat (.cls (by simp [rch])) (.altL (.cls (by simp [rch])))
    have hpre : MatchesN 5 pathPrefixAst ['.', '.'] :=
      .group (.altL (hdot.mono (by omega)))
    exact (MatchesN.altL (.group (.altL hpre)) : MatchesN 8 _ _).mono (by omega)
  · have hpre : MatchesN 5 pathPrefixAst ['~'] :=
      .group (.altR (.cls (by simp [rch])))
    exact (MatchesN.altL (.group (.altL hpre)) : MatchesN 8 _ _).mono (by omega)
  · have hbody : MatchesN (h.length + 3) (rplus (.group (.cls unixBodyChar))) h :=
      matchesN_plus_cls h hne hall
    exact MatchesN.altL (.group (.altR
      (hbody.mono (by omega : h.length + 3 ≤ h.length + 5))))

/-- Every string of the path language matches the transcribed
`unixLocalLinkClause`. -/
theorem matchesN_unix_clause (s : List Char) (hs : IsUnixPath s) :
    MatchesN (s.length + 10) unixLocalLinkClauseAst s := by
  obtain ⟨h, segs, hh, hne, hall, rfl⟩ := hs
  have h1 : MatchesN (h.length + segs.flatten.length + 8)
      (ropt (.group (.alt pathPrefixAst (rplus (.group (.cls unixBodyChar)))))) h :=
    (matchesN_head h hh).mono (by omega)
  have h2 : MatchesN (h.length + segs.flatten.length + 8)
      (rplus (.group (.cat (rch '/') (rplus (.group (.cls unixBodyChar))))))
      segs.flatten :=
    (matchesN_plus_seg segs hne hall).mono (by omega)
  exact (MatchesN.group (MatchesN.cat h1 h2)).mono
    (by simp only [List.length_append]; omega)

/-- The empty string matches the final bare fallback of the
line-and-column clause, hence the whole (grouped) suffix clause. -/
theorem matchesN_suffix_nil :
    MatchesN 12 (.group lineAndColumnClauseAst) ([] : List Char) := by
  have h6 : MatchesN 6 lineAndColumnClause6 ([] : List Char) := by
    show MatchesN 6 (.group _) ([] : List Char)
    exact .group (.cat (.group .starNil) (.cat (.altR .eps) (.cat (.altR .eps) .eps)))
  exact .group (.altR (.altR (.altR (.altR (.altR h6)))))

/-- Every string of the path language matches the combined
unix-link-plus-suffix regex. -/
theorem matchesN_local_link (s : List Char) (hs : IsUnixPath s) :
    MatchesN (s.length + 13) (localLinkRegexAst .Linux) s := by
  have h1 : MatchesN (s.length + 12) unixLocalLinkClauseAst s :=
    (matchesN_unix_clause s hs).mono (by omega)
  have h2 : MatchesN (s.length + 12) (.group lineAndColumnClauseAst) ([] : List Char) :=
    matchesN_suffix_nil.mono (by omega)
  have h3 := MatchesN.cat h1 h2
  rw [List.append_nil] at h3
  simpa [localLinkRegexAst] using h3

/-- Matching the combined unix regex at position 0 of a path-language
string succeeds and consumes at least one character. -/
theorem matchAt_unix_path (s : String) (hs : IsUnixPath s.data) :
    ∃ len caps, matchAt (localLinkRegexAst .Linux) s.data 0 = some (len, caps) ∧
      1 ≤ len := by
  have hd := matchesN_local_link s.data hs
  have hfuel : s.data.length + 13 ≤ mfuel (localLinkRegexAst .Linux) (s.data.length - 0) := by
    have h13 : 13 ≤ rsize (localLinkRegexAst .Linux) + 2 := by decide
    have hmul : (s.data.length - 0 + 1) * 13 ≤
        (s.data.length - 0 + 1) * (rsize (localLinkRegexAst .Linux) + 2) :=
      Nat.mul_le_mul_left _ h13
    unfold mfuel
    omega
  have hk : ∀ caps1 : Caps,
      ((fun (t : List Char) (caps : Caps) => some (t, caps)) ([] : List Char) caps1).isSome :=
    fun _ => rfl
  have hrun := mrun_complete hd (mfuel (localLinkRegexAst .Linux) (s.data.length - 0)) 1
      [] [] (fun t caps => some (t, caps)) hfuel hk
  rw [List.append_nil] at hrun
  unfold matchAt
  rcases hm : mrun (mfuel (localLinkRegexAst .Linux) (s.data.length - 0))
      (localLinkRegexAst .Linux) 1 (s.data.drop 0) [] (fun t caps => some (t, caps))
    with _ | ⟨t0, c0⟩
  · rw [List.drop_zero] at hm
    rw [hm] at hrun
    simp at hrun
  · obtain ⟨t1, c1, heq1, hle1, hlt1⟩ := mrun_consume _ _ _ _ _ _ (by rw [hm]; rfl)
    rw [hm] at heq1
    simp only [Option.some.injEq, Prod.mk.injEq] at heq1
    obtain ⟨rfl, rfl⟩ := heq1
    have hnn : nonNullable (localLinkRegexAst .Linux) = true := by decide
    have hlt : t1.length < (s.data.drop 0).length := hlt1 hnn
    rw [List.drop_zero] at hlt
    refine ⟨s.data.length - 0 - t1.length, c1, ?_, by omega⟩
    rfl

/-- The scanner emits a match on every line that is exactly a unix path. -/
theorem scanItems_unix_path (s : String) (hs : IsUnixPath s.data) :
    scanItems (localLinkRegexAst .Linux) s ≠ [] := by
  obtain ⟨len, caps, hm, hlen⟩ := matchAt_unix_path s hs
  have hexec : execFrom (localLinkRegexAst .Linux) s.data 0 = some (0, len, caps) :=
    execFrom_at_start hm (Nat.zero_le _)
  have hpre : ((s.data.drop 0).take len).isPrefixOf s.data = true := by
    rw [List.drop_zero]
    exact List.isPrefixOf_iff_prefix.mpr (List.take_prefix len s.data)
  have hidx : jsIndexOf s.data ((s.data.drop 0).take len) ((-1 : Int) + 1) = some 0 := by
    rw [show ((-1 : Int) + 1) = 0 by decide]
    exact jsIndexOf_zero_prefix hpre
  unfold scanItems
  rw [show s.data.length + 2 = (s.data.length + 1) + 1 from rfl, scanLoopI, hexec]
  simp only [hidx, if_neg (by omega : ¬(len = 0))]
  exact List.cons_ne_nil _ _

/-- A line that is exactly a unix path yields at least one scanned match. -/
theorem scanMatches_unix_path (s : String) (hs : IsUnixPath s.data) :
    scanMatches (localLinkRegexAst .Linux) s ≠ [] := by
  unfold scanMatches
  simp only [ne_eq, List.map_eq_nil_iff]
  exact scanItems_unix_path s hs

/-- Diff correction preserves the end of the match range and never moves
the start backwards (for matches of at least two characters). -/
theorem diffCorrect_range (text link : List Char) (si : Nat) (hlen : 2 ≤ link.length) :
    si ≤ (diffCorrect text link si).2 ∧
      (diffCorrect text link si).2 + (diffCorrect text link si).1.length =
        si + link.length := by
  unfold diffCorrect
  split
  · simp only [List.length_drop]
    omega
  · exact ⟨Nat.le_refl si, rfl⟩

/-- The engine never reports a match longer than the rest of the text. -/
theorem matchAt_len_le (h : matchAt r text pos = some (len, caps)) :
    len ≤ text.length - pos := by
  unfold matchAt at h
  rcases hm : mrun (mfuel r (text.length - pos)) r 1 (text.drop pos) []
      (fun t caps => some (t, caps)) with _ | ⟨t0, c0⟩ <;> rw [hm] at h
  · exact absurd h (by simp)
  · simp only [Option.some.injEq, Prod.mk.injEq] at h
    omega

/-- As `matchAt_len_le`, for the `exec` search loop. -/
theorem execFromAux_len_le :
    ∀ fuel start, execFromAux r text fuel start = some (pos, len, caps) →
      len ≤ text.length - pos := by
  intro fuel
  induction fuel with
  | zero => intro start h; simp [execFromAux] at h
  | succ fuel ih =>
    intro start h
    rw [execFromAux] at h
    by_cases hgt : start > text.length
    · simp [hgt] at h
    · rw [if_neg hgt] at h
      rcases hm : matchAt r text start with _ | ⟨l2, c2⟩
      · simp only [hm] at h
        exact ih (start + 1) h
      · simp only [hm] at h
        obtain ⟨rfl, rfl, rfl⟩ := h
        exact matchAt_len_le hm

/-- As `matchAt_len_le`, for `exec`. -/
theorem execFrom_len_le (h : execFrom r text start = some (pos, len, caps)) :
    len ≤ text.length - pos :=
  execFromAux_len_le _ _ h

/-- Main scan-loop invariant: as long as the `indexOf` recovery agrees
with the engine-reported position and every raw match is at least two
characters, the emitted matches are pairwise disjoint and in increasing
order, and each corrected range ends where the raw range ends. -/
theorem scanLoopI_disjoint (re : Regex) (text : List Char) :
    ∀ fuel lastIndex stringIndex,
      (∀ e ∈ scanLoopI re text fuel lastIndex stringIndex,
        e.siRaw = e.pos ∧ 2 ≤ e.rawLen) →
      List.Pairwise (fun a b => a.si + a.text.length ≤ b.si)
          (scanLoopI re text fuel lastIndex stringIndex) ∧
        ∀ e ∈ scanLoopI re text fuel lastIndex stringIndex,
          lastIndex ≤ e.pos ∧ e.siRaw ≤ e.si ∧
            e.si + e.text.length = e.siRaw + e.rawLen := by
  intro fuel
  induction fuel with
  | zero => intro lastIndex stringIndex _; simp [scanLoopI]
  | succ fuel ih =>
    intro lastIndex stringIndex hfaith
    rcases hex : execFrom re text lastIndex with _ | ⟨pos, len, caps⟩
    · simp [scanLoopI, hex]
    · by_cases hlen0 : len = 0
      · simp [scanLoopI, hex, hlen0]
      · rcases hidx : jsIndexOf text ((text.drop pos).take len) (stringIndex + 1)
          with _ | si
        · simp [scanLoopI, hex, hlen0, hidx]
        · have hloop : scanLoopI re text (fuel + 1) lastIndex stringIndex =
              ⟨String.mk (diffCorrect text ((text.drop pos).take len) si).1,
               (diffCorrect text ((text.drop pos).take len) si).2, pos, len, si⟩ ::
              scanLoopI re text fuel (si + ((text.drop pos).take len).length)
                (Int.ofNat (diffCorrect text ((text.drop pos).take len) si).2) := by
            rw [scanLoopI, hex]
            simp only [hlen0, if_neg, hidx]
            rfl
          rw [hloop] at hfaith ⊢
          have hsi_pos : si = pos := (hfaith _ (List.mem_cons_self _ _)).1
          have hraw2 : 2 ≤ len := (hfaith _ (List.mem_cons_self _ _)).2
          have hlenle : len ≤ text.length - pos := execFrom_len_le hex
          have hlink : ((text.drop pos).take len).length = len := by
            simp only [List.length_take, List.length_drop]
            omega
          obtain ⟨hmono, hend⟩ := diffCorrect_range text ((text.drop pos).take len) si
            (by omega)
          have hposge : lastIndex ≤ pos := execFrom_pos_ge hex
          obtain ⟨ihp, ihe⟩ := ih (si + ((text.drop pos).take len).length)
            (Int.ofNat (diffCorrect text ((text.drop pos).take len) si).2)
            (fun e he => hfaith e (List.mem_cons_of_mem _ he))
          have hstr : (String.mk (diffCorrect text ((text.drop pos).take len) si).1).length =
              (diffCorrect text ((text.drop pos).take len) si).1.length := rfl
          constructor
          · refine List.Pairwise.cons (fun b hb => ?_) ihp
            obtain ⟨hbp, hbsi, hbend⟩ := ihe b hb
            have hbfaith := (hfaith b (List.mem_cons_of_mem _ hb)).1
            show (diffCorrect text ((text.drop pos).take len) si).2 +
              (String.mk (diffCorrect text ((text.drop pos).take len) si).1).length ≤ b.si
            rw [hstr]
            omega
          · intro e he
            rcases List.mem_cons.mp he with rfl | he
            · refine ⟨hposge, hmono, ?_⟩
              show (diffCorrect text ((text.drop pos).take len) si).2 +
                (String.mk (diffCorrect text ((text.drop pos).take len) si).1).length =
                si + len
              rw [hstr]
              omega
            · obtain ⟨hbp, hbsi, hbend⟩ := ihe e he
              exact ⟨by omega, hbsi, hbend⟩

/-- The amended non-overlap statement at the level of the emitted
`(text, index)` pairs. -/
theorem scanMatches_pairwise (re : Regex) (text : String)
    (hfaith : ∀ e ∈ scanItems re text, e.siRaw = e.pos ∧ 2 ≤ e.rawLen) :
    List.Pairwise (fun a b => a.2 + a.1.length ≤ b.2) (scanMatches re text) := by
  unfold scanMatches
  rw [List.pairwise_map]
  exact (scanLoopI_disjoint re text.data _ 0 (-1) hfaith).1

/-- A `processMatch` that propagates a resolver rejection performs no
cache write: the error is raised inside `_validateLinkCandidates`,
before the `cachedValidatedLinks.set` call. -/
theorem processMatch_error_cache {cfg : DetectorConfig α ε} {cache cache1 : LinkCache α}
    {m : String × Nat} {e : ε} {calls : List String}
    (h : processMatch cfg cache m = (cache1, calls, .error e)) : cache1 = cache := by
  simp only [processMatch] at h
  split at h
  · simp at h
  · simp at h
  · split at h
    · simp only [Prod.mk.injEq] at h
      exact h.1.symm
    · simp at h

/-- If processing the matches `pre` succeeds and then `m` raises a
resolver rejection, the whole loop rejects with that error, discards all
accumulated links, keeps the resolver calls made so far, and returns the
cache exactly as it was after processing `pre`. -/
theorem detectLoop_error (cfg : DetectorConfig α ε) :
    ∀ (pre : List (String × Nat)) (cache : LinkCache α) (acc : List (SimpleLink α))
      (cache1 : LinkCache α) (calls1 : List String) (links1 : List (SimpleLink α)),
      detectLoop cfg cache pre acc = (cache1, calls1, .ok links1) →
      ∀ (m : String × Nat) (rest : List (String × Nat)) (e : ε)
        (cache2 : LinkCache α) (calls2 : List String),
        processMatch cfg cache1 m = (cache2, calls2, .error e) →
        detectLoop cfg cache (pre ++ m :: rest) acc =
          (cache1, calls1 ++ calls2, .error e) := by
  intro pre
  induction pre with
  | nil =>
    intro cache acc cache1 calls1 links1 h m rest e cache2 calls2 hm
    simp only [detectLoop, Prod.mk.injEq] at h
    obtain ⟨rfl, rfl, -⟩ := h
    have hc2 : cache2 = cache := processMatch_error_cache hm
    subst hc2
    simp only [List.nil_append, detectLoop, hm]
  | cons m0 pre ih =>
    intro cache acc cache1 calls1 links1 h m rest e cache2 calls2 hm
    simp only [detectLoop] at h
    rcases hp0 : processMatch cfg cache m0 with ⟨c0, calls0, res0⟩
    rw [hp0] at h
    rcases res0 with e0 | l0
    · simp at h
    · rcases l0 with _ | l
      · rcases hdl : detectLoop cfg c0 pre acc with ⟨c2, cl2, res2⟩
        simp only [hdl, Prod.mk.injEq] at h
        obtain ⟨rfl, rfl, hres⟩ := h
        rcases res2 with e2 | ls2
        · simp at hres
        · have := ih c0 acc c2 cl2 ls2 hdl m rest e cache2 calls2 hm
          simp only [List.cons_append, detectLoop, hp0, List.append_eq, this,
            List.append_assoc]
      · rcases hdl : detectLoop cfg c0 pre (acc ++ [l]) with ⟨c2, cl2, res2⟩
        simp only [hdl, Prod.mk.injEq] at h
        obtain ⟨rfl, rfl, hres⟩ := h
        rcases res2 with e2 | ls2
        · simp at hres
        · have := ih c0 (acc ++ [l]) c2 cl2 ls2 hdl m rest e cache2 calls2 hm
          simp only [List.cons_append, detectLoop, hp0, List.append_eq, this,
            List.append_assoc]

/-! ## The parent-traversal candidate characterisation (spec side) -/

/-- Spec side: the text begins with one or more repetitions of `../` or
`..\`. -/
def specBeginsWithParentTraversal (s : List Char) : Prop :=
  ∃ (units : List (List Char)) (rest : List Char), units ≠ [] ∧
    (∀ u ∈ units, u = "../".data ∨ u = "..\\".data) ∧ s = units.flatten ++ rest

/-- Stripping removes a (possibly empty) run of leading `../` or `..\`
units and leaves a text that starts with no further one. -/
theorem stripLeadingParentSegments_spec (s : List Char) :
    hasLeadingParentSegment (stripLeadingParentSegments s) = false ∧
    ∃ units : List (List Char),
      (∀ u ∈ units, u = "../".data ∨ u = "..\\".data) ∧
      s = units.flatten ++ stripLeadingParentSegments s := by
  suffices h : ∀ (n : Nat) (s : List Char), s.length ≤ n →
      hasLeadingParentSegment (stripLeadingParentSegments s) = false ∧
      ∃ units : List (List Char),
        (∀ u ∈ units, u = "../".data ∨ u = "..\\".data) ∧
        s = units.flatten ++ stripLeadingParentSegments s by
    exact h s.length s (Nat.le_refl _)
  intro n
  induction n with
  | zero =>
    intro s hs
    have : s = [] := List.eq_nil_of_length_eq_zero (Nat.le_zero.mp hs)
    subst this
    exact ⟨rfl, [], by simp, rfl⟩
  | succ n ih =>
    intro s hs
    by_cases h1 : "../".data.isPrefixOf s = true
    · obtain ⟨rest, hres⟩ := List.isPrefixOf_iff_prefix.mp h1
      subst hres
      have hstrip : stripLeadingParentSegments ("../".data ++ rest) =
          stripLeadingParentSegments rest := rfl
      obtain ⟨ha, units, hu, heq⟩ := ih rest (by simp at hs; omega)
      refine ⟨by rw [hstrip]; exact ha, "../".data :: units, ?_, ?_⟩
      · intro u hu2
        rcases List.mem_cons.mp hu2 with rfl | hu2
        · exact Or.inl rfl
        · exact hu u hu2
      · rw [hstrip, List.flatten_cons, List.append_assoc]
        exact congrArg _ heq
    · by_cases h2 : "..\\".data.isPrefixOf s = true
      · obtain ⟨rest, hres⟩ := List.isPrefixOf_iff_prefix.mp h2
        subst hres
        have hstrip : stripLeadingParentSegments ("..\\".data ++ rest) =
            stripLeadingParentSegments rest := rfl
        obtain ⟨ha, units, hu, heq⟩ := ih rest (by simp at hs; omega)
        refine ⟨by rw [hstrip]; exact ha, "..\\".data :: units, ?_, ?_⟩
        · intro u hu2
          rcases List.mem_cons.mp hu2 with rfl | hu2
          · exact Or.inr rfl
          · exact hu u hu2
        · rw [hstrip, List.flatten_cons, List.append_assoc]
          exact congrArg _ heq
      · have hstrip : stripLeadingParentSegments s = s := by
          rw [stripLeadingParentSegments.eq_def]
          split
          · exact absurd (by simp [List.isPrefixOf]) h1
          · exact absurd (by simp [List.isPrefixOf]) h2
          · rfl
        refine ⟨?_, [], by simp, by simp [hstrip]⟩
        rw [hstrip]
        simp only [hasLeadingParentSegment, Bool.or_eq_false_iff]
        constructor
        · exact Bool.not_eq_true _ |>.mp h1
        · exact Bool.not_eq_true _ |>.mp h2

/-- The code's anchored-regex test agrees with the spec-side phrasing
"begins with one or more repetitions of `../` or `..\`". -/
theorem hasLeadingParentSegment_iff (s : List Char) :
    hasLeadingParentSegment s = true ↔ specBeginsWithParentTraversal s := by
  constructor
  · intro h
    simp only [hasLeadingParentSegment, Bool.or_eq_true] at h
    rcases h with h | h
    · obtain ⟨rest, hres⟩ := List.isPrefixOf_iff_prefix.mp h
      exact ⟨["../".data], rest, by simp, by simp, by rw [← hres]; simp⟩
    · obtain ⟨rest, hres⟩ := List.isPrefixOf_iff_prefix.mp h
      exact ⟨["..\\".data], rest, by simp, by simp, by rw [← hres]; simp⟩
  · rintro ⟨units, rest, hne, hu, rfl⟩
    cases units with
    | nil => exact absurd rfl hne
    | cons u us =>
      rcases hu u (by simp) with rfl | rfl
      · simp [hasLeadingParentSegment, List.flatten_cons, List.append_assoc,
          List.isPrefixOf_iff_prefix]
      · simp [hasLeadingParentSegment, List.flatten_cons, List.append_assoc,
          List.isPrefixOf_iff_prefix]

/-! ## Timer-system lemmas -/

/-- Well-formedness of the timer system together with one detector
instance: armed ids are distinct, positive and below the next fresh id,
the next fresh id is positive, and the instance field is below it. -/
def TimerWF (sys : TimerSys) (d : DetectorTimerState) : Prop :=
  sys.armed.Nodup ∧ (∀ i ∈ sys.armed, 0 < i ∧ i < sys.nextId) ∧
    0 < sys.nextId ∧ d.cacheTilTimeout < sys.nextId

/-- Arming the cache-clear timer cancels only this instance's own
previous timer: afterwards that timer is gone, a fresh timer is armed and
recorded in the instance field, every armed timer with a different id
survives, and well-formedness is preserved. -/
theorem armCacheClear_props (sys : TimerSys) (d : DetectorTimerState)
    (hwf : TimerWF sys d) :
    (armCacheClear true d sys).1.cacheTilTimeout = sys.nextId ∧
    sys.nextId ∈ (armCacheClear true d sys).2.armed ∧
    (d.cacheTilTimeout ≠ 0 → d.cacheTilTimeout ∉ (armCacheClear true d sys).2.armed) ∧
    (∀ j ∈ sys.armed, j ≠ d.cacheTilTimeout → j ∈ (armCacheClear true d sys).2.armed) ∧
    TimerWF (armCacheClear true d sys).2 (armCacheClear true d sys).1 := by
  obtain ⟨hnodup, hbound, hpos, hd⟩ := hwf
  by_cases h0 : d.cacheTilTimeout ≠ 0
  · have harm : (armCacheClear true d sys).2.armed =
        sys.armed.erase d.cacheTilTimeout ++ [sys.nextId] := by
      simp [armCacheClear, h0, clearTimeout, setTimeout]
    have hfield : (armCacheClear true d sys).1.cacheTilTimeout = sys.nextId := by
      simp [armCacheClear, h0, clearTimeout, setTimeout]
    have hnext : (armCacheClear true d sys).2.nextId = sys.nextId + 1 := by
      simp [armCacheClear, h0, clearTimeout, setTimeout]
    refine ⟨hfield, ?_, ?_, ?_, ?_⟩
    · rw [harm]; simp
    · intro _
      rw [harm]
      simp only [List.mem_append, List.mem_singleton]
      rintro (hmem | hmem)
      · exact hnodup.not_mem_erase hmem
      · exact absurd hmem (by omega)
    · intro j hj hne
      rw [harm]
      simp only [List.mem_append, List.mem_singleton]
      exact Or.inl ((List.mem_erase_of_ne hne).mpr hj)
    · refine ⟨?_, ?_, ?_, ?_⟩
      · rw [harm]
        refine List.Nodup.append (hnodup.erase _) (by simp) ?_
        intro a ha hb
        simp only [List.mem_singleton] at hb
        subst hb
        have := hbound _ (List.mem_of_mem_erase ha)
        omega
      · rw [harm, hnext]
        intro i hi
        simp only [List.mem_append, List.mem_singleton] at hi
        rcases hi with hi | rfl
        · have := hbound i (List.mem_of_mem_erase hi)
          omega
        · omega
      · rw [hnext]; omega
      · rw [hnext, hfield]; omega
  · push_neg at h0
    have harm : (armCacheClear true d sys).2.armed = sys.armed ++ [sys.nextId] := by
      simp [armCacheClear, h0, setTimeout]
    have hfield : (armCacheClear true d sys).1.cacheTilTimeout = sys.nextId := by
      simp [armCacheClear, h0, setTimeout]
    have hnext : (armCacheClear true d sys).2.nextId = sys.nextId + 1 := by
      simp [armCacheClear, h0, setTimeout]
    refine ⟨hfield, ?_, fun hc => absurd h0 hc, ?_, ?_⟩
    · rw [harm]; simp
    · intro j hj _
      rw [harm]
      simp only [List.mem_append, List.mem_singleton]
      exact Or.inl hj
    · refine ⟨?_, ?_, ?_, ?_⟩
      · rw [harm]
        refine List.Nodup.append hnodup (by simp) ?_
        intro a ha hb
        simp only [List.mem_singleton] at hb
        subst hb
        have := hbound _ ha
        omega
      · rw [harm, hnext]
        intro i hi
        simp only [List.mem_append, List.mem_singleton] at hi
        rcases hi with hi | rfl
        · have := hbound i hi
          omega
        · omega
      · rw [hnext]; omega
      · rw [hnext, hfield]; omega

/-- Equality of `Except` values is decidable componentwise. -/
instance {ε α : Type} [DecidableEq ε] [DecidableEq α] : DecidableEq (Except ε α)
  | .error e1, .error e2 =>
    if h : e1 = e2 then .isTrue (by rw [h]) else .isFalse (fun hc => h (by injection hc))
  | .error _, .ok _ => .isFalse (fun hc => Except.noConfusion hc)
  | .ok _, .error _ => .isFalse (fun hc => Except.noConfusion hc)
  | .ok a1, .ok a2 =>
    if h : a1 = a2 then .isTrue (by rw [h]) else .isFalse (fun hc => h (by injection hc))

/-! ## Concrete detector configurations used by the claims -/

/-- A resolver that fails on `../../x/y.ts` but resolves the stripped
fallback `x/y.ts` to a file. -/
def c1Config : DetectorConfig String String :=
  ⟨.Linux, true, [], fun _ _ => false,
   fun s => .ok (if s = "x/y.ts"
     then some ⟨"file:///x/y.ts", "x/y.ts", false⟩ else none)⟩

/-- A resolver that finds nothing (and never rejects). -/
def c2Config : DetectorConfig String String :=
  ⟨.Linux, true, [], fun _ _ => false, fun _ => .ok none⟩

/-- A resolver that rejects on `x/y` and finds nothing else. -/
def c10Config : DetectorConfig String String :=
  ⟨.Linux, true, [], fun _ _ => false,
   fun s => if s = "x/y" then .error "boom" else .ok none⟩

/-! ## The claims -/

/-- C1: the spec says a validated candidate produces a link record in the
same `detect` pass.  The code loses the validation result: the `const
linkStat` bound at line 148 shadows the outer `let linkStat` of line 135,
so the `if (linkStat)` at line 156 still sees `undefined` and no link is
appended in the pass that performed the validation.  At the spec's own
example input `../../x/y.ts` (resolver failing on it and succeeding on
the stripped `x/y.ts`), the first pass calls the resolver on both
candidates, caches the successful result, but emits no link; only a
second pass, served from the cache, emits the link the claim requires of
the first. -/
theorem c1_validated_link_dropped_in_same_pass :
    detect c1Config [] "../../x/y.ts" =
      ([("../../x/y.ts", some ⟨"file:///x/y.ts", "x/y.ts", false⟩)],
       ["../../x/y.ts", "x/y.ts"], .ok []) ∧
    detect c1Config [("../../x/y.ts", some ⟨"file:///x/y.ts", "x/y.ts", false⟩)]
      "../../x/y.ts" =
      ([("../../x/y.ts", some ⟨"file:///x/y.ts", "x/y.ts", false⟩)], [],
       .ok [⟨"x/y.ts", "file:///x/y.ts", ⟨1, 13⟩, .LocalFile⟩]) := by
  constructor
  · decide
  · decide

/-- C2: a cached `NOT_FOUND` sentinel (`null` in the map) short-circuits:
no link is emitted for the match and the resolver is not called; and a
second detection of the same line within the cache window issues no
further resolver call.  The first conjunct is the per-match statement,
the remaining ones replay a not-found pass and its cached repetition. -/
theorem c2_not_found_cache_short_circuit :
    (∀ (α ε : Type) (cfg : DetectorConfig α ε) (cache : LinkCache α)
       (m : String × Nat),
      cacheGet cache m.1 = some none →
      processMatch cfg cache m = (cache, [], .ok none)) ∧
    detect c2Config [] "x/y" = ([("x/y", none)], ["x/y"], .ok []) ∧
    detect c2Config [("x/y", none)] "x/y" = ([("x/y", none)], [], .ok []) := by
  refine ⟨?_, by decide, by decide⟩
  intro α ε cfg cache m h
  simp only [processMatch, h]

/-- Witness for C2's per-match statement at a concrete cached-not-found
entry. -/
theorem c2_witness :
    processMatch c2Config [("x/y", none)] ("x/y", 0) =
      ([("x/y", none)], [], .ok none) :=
  c2_not_found_cache_short_circuit.1 String String c2Config
    [("x/y", none)] ("x/y", 0) (by decide)

/-- C3: the git-diff prefix correction strips the two-character `a/` or
`b/` prefix and shifts the recovered index by two exactly under the
claimed conditions, and on the input line `--- a/src/foo.ts` the scan
emits the link text `src/foo.ts` at index 6 (= 4 + 2). -/
theorem c3_diff_prefix_correction :
    (∀ (text link : List Char) (si : Nat),
      ((("--- a/".data.isPrefixOf text || "+++ b/".data.isPrefixOf text) && si = 4)
        || ("diff --git".data.isPrefixOf text
            && ("a/".data.isPrefixOf link || "b/".data.isPrefixOf link))) = true →
      diffCorrect text link si = (link.drop 2, si + 2)) ∧
    (∀ (text link : List Char) (si : Nat),
      ((("--- a/".data.isPrefixOf text || "+++ b/".data.isPrefixOf text) && si = 4)
        || ("diff --git".data.isPrefixOf text
            && ("a/".data.isPrefixOf link || "b/".data.isPrefixOf link))) = false →
      diffCorrect text link si = (link, si)) ∧
    scanMatches (localLinkRegexAst .Linux) "--- a/src/foo.ts" =
      [("src/foo.ts", 6)] := by
  refine ⟨?_, ?_, by decide⟩
  · intro text link si h
    simp [diffCorrect, h]
  · intro text link si h
    simp [diffCorrect, h]

/-- Witness for C3's conditional parts at the diff example. -/
theorem c3_witness :
    diffCorrect "--- a/src/foo.ts".data "a/src/foo.ts".data 4 =
      ("src/foo.ts".data, 6) ∧
    diffCorrect "x/y".data "x/y".data 0 = ("x/y".data, 0) := by
  constructor
  · rw [c3_diff_prefix_correction.1 "--- a/src/foo.ts".data "a/src/foo.ts".data 4
      (by decide)]
    decide
  · rw [c3_diff_prefix_correction.2.1 "x/y".data "x/y".data 0 (by decide)]

/-- C4: an empty or over-2000-character reconstructed line makes `detect`
return the empty list silently with no state change, while any other line
is handed to the scan-and-process pipeline. -/
theorem c4_length_bound :
    (∀ (α ε : Type) (cfg : DetectorConfig α ε) (cache : LinkCache α) (text : String),
      (text = "" ∨ text.length > MaxLineLength) →
      detect cfg cache text = (cache, [], .ok [])) ∧
    (∀ (α ε : Type) (cfg : DetectorConfig α ε) (cache : LinkCache α) (text : String),
      ¬(text = "" ∨ text.length > MaxLineLength) →
      detect cfg cache text =
        detectLoop cfg cache (scanMatches (localLinkRegexAst cfg.os) text) []) := by
  constructor
  · intro α ε cfg cache text h
    simp [detect, h]
  · intro α ε cfg cache text h
    simp [detect, h]

/-- Length of a replicated-character string. -/
theorem length_mk_replicate (n : Nat) (c : Char) :
    (String.mk (List.replicate n c)).length = n := by
  simp [String.length]

/-- Witness for C4: a 2001-character line yields zero links, a
2000-character line reaches the scanner. -/
theorem c4_witness :
    detect c2Config [] (String.mk (List.replicate 2001 ' ')) = ([], [], .ok []) ∧
    detect c2Config [] (String.mk (List.replicate 2000 ' ')) =
      detectLoop c2Config []
        (scanMatches (localLinkRegexAst c2Config.os)
          (String.mk (List.replicate 2000 ' '))) [] := by
  constructor
  · refine c4_length_bound.1 String String c2Config [] _ (Or.inr ?_)
    rw [length_mk_replicate]
    decide
  · refine c4_length_bound.2 String String c2Config [] _ ?_
    rintro (h | h)
    · have h2 : (String.mk (List.replicate 2000 ' ')).data = String.data "" :=
        congrArg String.data h
      have h3 := congrArg List.length h2
      rw [List.length_replicate] at h3
      exact absurd h3 (by decide)
    · rw [length_mk_replicate] at h
      exact absurd h (by decide)

/-- C5: for every matched text the candidate list is the raw text, plus
the parent-traversal-stripped text exactly when the raw text begins with
`../` or `..\` repetitions; and the validator tries candidates strictly
in order, returning the first resolver success and absent when all
candidates fail. -/
theorem c5_candidates_and_validation_order :
    (∀ link : String,
      (specBeginsWithParentTraversal link.data →
        linkCandidates link = [link, String.mk (stripLeadingParentSegments link.data)]) ∧
      (¬specBeginsWithParentTraversal link.data → linkCandidates link = [link])) ∧
    (∀ (α ε : Type) (resolve : String → Except ε (Option (ResolvedLink α)))
       (pre : List String) (c : String) (post : List String) (r : ResolvedLink α),
      (∀ x ∈ pre, resolve x = .ok none) → resolve c = .ok (some r) →
      validateLinkCandidates resolve (pre ++ c :: post) = (.ok (some r), pre ++ [c])) ∧
    (∀ (α ε : Type) (resolve : String → Except ε (Option (ResolvedLink α)))
       (cs : List String),
      (∀ x ∈ cs, resolve x = .ok none) →
      validateLinkCandidates resolve cs = (.ok none, cs)) := by
  refine ⟨?_, ?_, ?_⟩
  · intro link
    constructor
    · intro hspec
      have hb := (hasLeadingParentSegment_iff link.data).mpr hspec
      simp [linkCandidates, hb]
    · intro hspec
      have hb : hasLeadingParentSegment link.data = false :=
        (Bool.not_eq_true _).mp
          (fun h => hspec ((hasLeadingParentSegment_iff link.data).mp h))
      simp [linkCandidates, hb]
  · intro α ε resolve pre
    induction pre with
    | nil =>
      intro c post r hpre hc
      simp [validateLinkCandidates, hc]
    | cons x xs ih =>
      intro c post r hpre hc
      have hx : resolve x = .ok none := hpre x (by simp)
      have hxs := ih c post r (fun y hy => hpre y (by simp [hy])) hc
      simp [validateLinkCandidates, hx, hxs]
  · intro α ε resolve cs
    induction cs with
    | nil => intro _; rfl
    | cons x xs ih =>
      intro hall
      have hx : resolve x = .ok none := hall x (by simp)
      have hxs := ih (fun y hy => hall y (by simp [hy]))
      simp [validateLinkCandidates, hx, hxs]

/-- Witness for C5 at the spec's own example: `../../x/y.ts` yields the
two candidates and the validator returns the second's resolution after
the first fails. -/
theorem c5_witness :
    linkCandidates "../../x/y.ts" = ["../../x/y.ts", "x/y.ts"] ∧
    linkCandidates "x/y.ts" = ["x/y.ts"] ∧
    validateLinkCandidates c1Config.resolvePath ["../../x/y.ts", "x/y.ts"] =
      (.ok (some ⟨"file:///x/y.ts", "x/y.ts", false⟩), ["../../x/y.ts", "x/y.ts"]) := by
  refine ⟨?_, ?_, ?_⟩
  · rw [(c5_candidates_and_validation_order.1 "../../x/y.ts").1
      ⟨["../".data, "../".data], "x/y.ts".data, by decide, by decide, by decide⟩]
    decide
  · rw [(c5_candidates_and_validation_order.1 "x/y.ts").2
      (fun hspec => by
        have := (hasLeadingParentSegment_iff _).mpr hspec
        exact absurd this (by decide))]
  · exact c5_candidates_and_validation_order.2.1 String String c1Config.resolvePath
      ["../../x/y.ts"] "x/y.ts" [] ⟨"file:///x/y.ts", "x/y.ts", false⟩
      (by intro x hx; simp at hx; subst hx; decide) (by decide)

/-- C6: the claim of never-overlapping, ordered matches fails on a line
in which a later matched text also occurs earlier: on `x/yy/y y/y` the
stale `indexOf` recovery places the second match at index 3, inside the
first match's range `[0, 6)`, and the same final match is emitted twice. -/
theorem c6_counterexample :
    scanMatches (localLinkRegexAst .Linux) "x/yy/y y/y" =
      [("x/yy/y", 0), ("y/y", 3), ("y/y", 7)] ∧
    ¬ List.Pairwise (fun a b => a.2 + a.1.length ≤ b.2)
        (scanMatches (localLinkRegexAst .Linux) "x/yy/y y/y") := by
  constructor
  · decide
  · decide

/-- C6 amended: when each emitted match's recovered index is the
engine-reported position (no stale earlier occurrence) and each raw
match spans at least two characters (always true for the local-link
pattern), the emitted matches are pairwise disjoint and in increasing
order; two adjacent paths separated by whitespace yield two disjoint
ordered matches. -/
theorem c6_amended_nonoverlap :
    (∀ (re : Regex) (text : String),
      (∀ e ∈ scanItems re text, e.siRaw = e.pos ∧ 2 ≤ e.rawLen) →
      List.Pairwise (fun a b => a.2 + a.1.length ≤ b.2) (scanMatches re text)) ∧
    scanMatches (localLinkRegexAst .Linux) "a/b c/d" = [("a/b", 0), ("c/d", 4)] :=
  ⟨scanMatches_pairwise, by decide⟩

/-- Witness for C6's amended statement on the adjacent-paths line. -/
theorem c6_amended_witness :
    List.Pairwise (fun a b => a.2 + a.1.length ≤ b.2)
      (scanMatches (localLinkRegexAst .Linux) "a/b c/d") :=
  c6_amended_nonoverlap.1 (localLinkRegexAst .Linux) "a/b c/d" (by decide)

/-- C7: on `foo/bar.ts:45:9` the whole-line match succeeds (15
characters), but capture group `unixLineAndColumnMatchIndex = 11` is
undefined -- the constant does not locate `:45:9` (nor anything) for
this input, because the suffix matched via the sixth alternative, not
the first. -/
theorem c7_counterexample :
    (matchAt (localLinkRegexAst .Linux) "foo/bar.ts:45:9".data 0).map
        (fun p => (p.1, capsGet p.2 unixLineAndColumnMatchIndex)) =
      some (15, none) ∧
    ¬((matchAt (localLinkRegexAst .Linux) "foo/bar.ts:45:9".data 0).map
        (fun p => capsGet p.2 unixLineAndColumnMatchIndex) =
      some (some ":45:9".data)) := by
  constructor
  · decide
  · decide

/-- C7 amended: the clause is an alternation of exactly six
sub-patterns of exactly six capture groups each; the platform constants
equal each path clause's group count plus the fixed offset 5 and give
the line-number group of the *first* alternative, the corresponding
group of alternative `i` being the constant plus `6 * (i - 1)`; for
`foo/bar.ts:45:9` (sixth alternative) that group, 41, captures `45`,
group 43 captures `9`, and the whole `:45:9` block is captured by the
group wrapping the clause (the path group count plus one). -/
theorem c7_amended_group_structure :
    lineAndColumnClauseList.length = 6 ∧
    lineAndColumnClauseList.map countGroups =
      List.replicate 6 lineAndColumnClauseGroupCount ∧
    unixLineAndColumnMatchIndex = countGroups unixLocalLinkClauseAst + 5 ∧
    winLineAndColumnMatchIndex = countGroups winLocalLinkClauseAst + 5 ∧
    (matchAt (localLinkRegexAst .Linux) "foo/bar.ts:45:9".data 0).map
        (fun p =>
          (capsGet p.2 (unixLineAndColumnMatchIndex + 5 * lineAndColumnClauseGroupCount),
           capsGet p.2 (unixLineAndColumnMatchIndex + 5 * lineAndColumnClauseGroupCount + 2),
           capsGet p.2 (countGroups unixLocalLinkClauseAst + 1))) =
      some (some "45".data, some "9".data, some ":45:9".data) := by
  refine ⟨rfl, by decide, by decide, by decide, by decide⟩

/-- C8: the scanner finds every string of the POSIX path grammar (which
always contains a `/`): each of the spec's examples is found as the
whole single match, while a bare `foo` with no separator yields no
match. -/
theorem c8_posix_grammar_scan :
    (∀ s : String, IsUnixPath s.data →
      scanMatches (localLinkRegexAst .Linux) s ≠ []) ∧
    scanMatches (localLinkRegexAst .Linux) "./foo/bar" = [("./foo/bar", 0)] ∧
    scanMatches (localLinkRegexAst .Linux) "../a/b" = [("../a/b", 0)] ∧
    scanMatches (localLinkRegexAst .Linux) "~/x" = [("~/x", 0)] ∧
    scanMatches (localLinkRegexAst .Linux) "/etc/hosts" = [("/etc/hosts", 0)] ∧
    scanMatches (localLinkRegexAst .Linux) "foo" = [] := by
  refine ⟨scanMatches_unix_path, by decide, by decide, by decide, by decide, by decide⟩

/-- Witness for C8's universal part at `./foo/bar`, with an explicit
grammar derivation of the path shape. -/
theorem c8_witness :
    scanMatches (localLinkRegexAst .Linux) "./foo/bar" ≠ [] :=
  c8_posix_grammar_scan.1 "./foo/bar"
    ⟨['.'], [['/', 'f', 'o', 'o'], ['/', 'b', 'a', 'r']],
     Or.inr (Or.inl rfl), by decide,
     by
       intro seg hseg
       simp only [List.mem_cons, List.not_mem_nil, or_false] at hseg
       rcases hseg with rfl | rfl
       · exact ⟨['f', 'o', 'o'], rfl, by decide, by decide⟩
       · exact ⟨['b', 'a', 'r'], rfl, by decide, by decide⟩,
     by decide⟩

/-- C9: two detector instances each arm their own cache-clear timer;
the second instance's `detect` does not cancel the first instance's
armed timer (the `_cacheTilTimeout` handle is per instance, not
process-wide), so two timers are armed at once -- refuting the claim
that at most one cache-clear timer is ever armed and that arming
cancels a timer armed by a different instance. -/
theorem c9_counterexample :
    (armCacheClear true DetectorTimerState.fresh
        (armCacheClear true DetectorTimerState.fresh TimerSys.fresh).2).2.armed =
      [1, 2] ∧
    ¬((armCacheClear true DetectorTimerState.fresh
        (armCacheClear true DetectorTimerState.fresh TimerSys.fresh).2).2.armed.length ≤ 1) ∧
    (armCacheClear true DetectorTimerState.fresh TimerSys.fresh).1.cacheTilTimeout ∈
      (armCacheClear true DetectorTimerState.fresh
        (armCacheClear true DetectorTimerState.fresh TimerSys.fresh).2).2.armed := by
  refine ⟨by decide, by decide, by decide⟩

/-- C9 amended: each detect call with caching enabled cancels only the
calling instance's own previously armed timer before arming a fresh one
(recorded in that instance's field); armed timers with any other id --
in particular those armed by other instances -- survive. -/
theorem c9_amended_per_instance_timer :
    ∀ (sys : TimerSys) (d : DetectorTimerState), TimerWF sys d →
      (armCacheClear true d sys).1.cacheTilTimeout = sys.nextId ∧
      sys.nextId ∈ (armCacheClear true d sys).2.armed ∧
      (d.cacheTilTimeout ≠ 0 →
        d.cacheTilTimeout ∉ (armCacheClear true d sys).2.armed) ∧
      (∀ j ∈ sys.armed, j ≠ d.cacheTilTimeout →
        j ∈ (armCacheClear true d sys).2.armed) ∧
      TimerWF (armCacheClear true d sys).2 (armCacheClear true d sys).1 :=
  fun sys d hwf => armCacheClear_props sys d hwf

/-- Witness for C9's amended statement: an instance whose timer 2 is
armed re-arms against a system that also holds timer 1 of another
owner; its own timer is cancelled, timer 1 survives. -/
theorem c9_amended_witness :
    (armCacheClear true ⟨2⟩ ⟨3, [1, 2]⟩).1.cacheTilTimeout = 3 ∧
    3 ∈ (armCacheClear true ⟨2⟩ ⟨3, [1, 2]⟩).2.armed ∧
    ((2 : Nat) ≠ 0 → 2 ∉ (armCacheClear true ⟨2⟩ ⟨3, [1, 2]⟩).2.armed) ∧
    (∀ j ∈ [1, 2], j ≠ 2 → j ∈ (armCacheClear true ⟨2⟩ ⟨3, [1, 2]⟩).2.armed) ∧
    TimerWF (armCacheClear true ⟨2⟩ ⟨3, [1, 2]⟩).2 (armCacheClear true ⟨2⟩ ⟨3, [1, 2]⟩).1 :=
  c9_amended_per_instance_timer ⟨3, [1, 2]⟩ ⟨2⟩ (by unfold TimerWF; decide)

/-- C10: when a resolver call rejects, the whole `detect` pass rejects
with the propagated error, returning no links (links validated earlier
in the pass are discarded with the rejection), while the cache keeps
exactly the entries written up to the failing match (the failing match
itself writes nothing, as the rejection happens before the cache
`set`). -/
theorem c10_resolver_rejection_propagates :
    ∀ (α ε : Type) (cfg : DetectorConfig α ε) (cache : LinkCache α) (text : String)
      (pre : List (String × Nat)) (m : String × Nat) (rest : List (String × Nat))
      (cache1 : LinkCache α) (calls1 : List String) (links1 : List (SimpleLink α))
      (e : ε) (cache2 : LinkCache α) (calls2 : List String),
      ¬(text = "" ∨ text.length > MaxLineLength) →
      scanMatches (localLinkRegexAst cfg.os) text = pre ++ m :: rest →
      detectLoop cfg cache pre [] = (cache1, calls1, .ok links1) →
      processMatch cfg cache1 m = (cache2, calls2, .error e) →
      detect cfg cache text = (cache1, calls1 ++ calls2, .error e) ∧
        cache2 = cache1 := by
  intro α ε cfg cache text pre m rest cache1 calls1 links1 e cache2 calls2 hlen hscan hpre hm
  refine ⟨?_, processMatch_error_cache hm⟩
  unfold detect
  rw [if_neg hlen, hscan]
  exact detectLoop_error cfg pre cache [] cache1 calls1 links1 hpre m rest e cache2 calls2 hm

/-- Witness for C10: a pass that emits a cached link for `a/b` and then
hits a rejecting resolver on `x/y` rejects as a whole, discarding the
already-produced link but keeping the cache. -/
theorem c10_witness :
    detect c10Config [("a/b", some ⟨"file:///a/b", "a/b", false⟩)] "a/b x/y" =
      ([("a/b", some ⟨"file:///a/b", "a/b", false⟩)], ["x/y"], .error "boom") :=
  (c10_resolver_rejection_propagates String String c10Config
    [("a/b", some ⟨"file:///a/b", "a/b", false⟩)] "a/b x/y"
    [("a/b", 0)] ("x/y", 4) []
    [("a/b", some ⟨"file:///a/b", "a/b", false⟩)] []
    [⟨"a/b", "file:///a/b", ⟨1, 4⟩, .LocalFile⟩]
    "boom" [("a/b", some ⟨"file:///a/b", "a/b", false⟩)] ["x/y"]
    (by decide) (by decide) (by decide) (by decide)).1
